import Mathlib

/-!
Shallow embedding of `src/data/src/dependency_graph.rs` (enso-org/rust-lib).

Rust machine values are modelled as follows:
* `usize` indices become `Nat` (the code never subtracts or overflows them);
* `Vec<usize>` becomes `List Nat`, `Vec<Node>` becomes `List Node`;
* operations that can panic (positional `Vec::remove` with an out-of-bounds
  index, slice indexing `nodes[i]`) return `Option`, `none` modelling a panic;
* `BTreeSet<usize>` becomes a strictly sorted `List Nat` with ordered insert
  and remove; the iterator's first element is the list head.
-/

namespace DepGraph

/-- Rust `Node`: registers all incoming and outgoing edges. -/
structure Node where
  ins : List Nat
  out : List Nat
  deriving DecidableEq, Repr

instance : Inhabited Node := ⟨⟨[], []⟩⟩

/-- `Node::default()`: empty edge lists. -/
def Node.empty : Node := ⟨[], []⟩

/-- Rust `DependencyGraph`: a dense vector of nodes. -/
structure DependencyGraph where
  nodes : List Node
  deriving DecidableEq, Repr

instance : Inhabited DependencyGraph := ⟨⟨[]⟩⟩

/-- `DependencyGraph::new()`. -/
def DependencyGraph.new : DependencyGraph := ⟨[]⟩

/-- Rust `Vec::remove(i)`: removes the element at position `i`;
`none` models the panic when `i` is out of bounds. -/
def vecRemove (l : List Nat) (i : Nat) : Option (List Nat) :=
  if i < l.length then some (l.eraseIdx i) else none

/-- Rust nightly `Vec::remove_item(&x)` (used at line 126 of the source):
removes the first element equal to `x`, if any. -/
def removeItem (l : List Nat) (x : Nat) : List Nat := l.erase x

/-- Rust `Vec::pop()`: removes and returns the last element. -/
def vecPop (l : List Nat) : Option Nat × List Nat := (l.getLast?, l.dropLast)

/-- `DependencyGraph::grow`: extend the node vector with default nodes up to
`required_size`; never shrinks. -/
def grow (g : DependencyGraph) (required_size : Nat) : DependencyGraph :=
  if g.nodes.length < required_size
  then ⟨g.nodes ++ List.replicate (required_size - g.nodes.length) Node.empty⟩
  else g

/-- `self.nodes[first].out.push(second)`. -/
def pushOut (nodes : List Node) (i x : Nat) : List Node :=
  nodes.set i { nodes.getD i Node.empty with out := (nodes.getD i Node.empty).out ++ [x] }

/-- `self.nodes[second].ins.push(first)`. -/
def pushIns (nodes : List Node) (i x : Nat) : List Node :=
  nodes.set i { nodes.getD i Node.empty with ins := (nodes.getD i Node.empty).ins ++ [x] }

/-- `DependencyGraph::insert_dependency`. After `grow (1 + max first second)`
both indices are in bounds, so the two indexings cannot panic. -/
def insert_dependency (g : DependencyGraph) (first second : Nat) : DependencyGraph :=
  let g1 := grow g (1 + max first second)
  ⟨pushIns (pushOut g1.nodes first second) second first⟩

/-- Inner loop `for ix2 in node.ins { self.nodes[ix2].out.remove(ix); }` of
`unchecked_keep_only` (source line 74): positional removal, may panic. -/
def removeOutEdges (ix : Nat) : List Nat → List Node → Option (List Node)
  | [], nodes => some nodes
  | ix2 :: rest, nodes =>
    match nodes.get? ix2 with
    | none => none
    | some n =>
      match vecRemove n.out ix with
      | none => none
      | some out2 => removeOutEdges ix rest (nodes.set ix2 { n with out := out2 })

/-- Inner loop `for ix2 in node.out { self.nodes[ix2].ins.remove(ix); }` of
`unchecked_keep_only` (source line 75): positional removal, may panic. -/
def removeInsEdges (ix : Nat) : List Nat → List Node → Option (List Node)
  | [], nodes => some nodes
  | ix2 :: rest, nodes =>
    match nodes.get? ix2 with
    | none => none
    | some n =>
      match vecRemove n.ins ix with
      | none => none
      | some ins2 => removeInsEdges ix rest (nodes.set ix2 { n with ins := ins2 })

/-- The `else` branch of the scan in `unchecked_keep_only`:
`let node = mem::take(&mut self.nodes[ix]); ...` followed by both edge-removal
loops. -/
def clearNode (nodes : List Node) (ix : Nat) : Option (List Node) :=
  match nodes.get? ix with
  | none => none
  | some node =>
    match removeOutEdges ix node.ins (nodes.set ix Node.empty) with
    | none => none
    | some nodes2 => removeInsEdges ix node.out nodes2

/-- The `for ix in 0..self.nodes.len()` scan of `unchecked_keep_only`;
`fuel` counts the remaining iterations (`nodes.length` at the start, the
length never changes while scanning). -/
def ukoGo : Nat → Nat → List Nat → Option Nat → List Node → Option (List Node)
  | 0, _, _, _, nodes => some nodes
  | fuel + 1, ix, keep, next, nodes =>
    if next = some ix then
      ukoGo fuel (ix + 1) (vecPop keep).2 (vecPop keep).1 nodes
    else
      match clearNode nodes ix with
      | none => none
      | some nodes2 => ukoGo fuel (ix + 1) keep next nodes2

/-- `DependencyGraph::unchecked_keep_only` (precondition: slice sorted in
reversed order). `none` models a panic of the positional `Vec::remove`. -/
def unchecked_keep_only (g : DependencyGraph) (rev_sorted_ixes : List Nat) :
    Option DependencyGraph :=
  match ukoGo g.nodes.length 0 (vecPop rev_sorted_ixes).2 (vecPop rev_sorted_ixes).1 g.nodes with
  | none => none
  | some nodes => some ⟨nodes⟩

/-- `DependencyGraph::unchecked_kept_only`: consuming form of the same. -/
def unchecked_kept_only (g : DependencyGraph) (rev_sorted_ixes : List Nat) :
    Option DependencyGraph :=
  unchecked_keep_only g rev_sorted_ixes

/-- Insertion into an ascending list, used to model itertools `sorted()`. -/
def insertSorted (x : Nat) : List Nat → List Nat
  | [] => [x]
  | y :: ys => if x ≤ y then x :: y :: ys else y :: insertSorted x ys

/-- itertools `.sorted()`: ascending stable sort. -/
def sortAsc (l : List Nat) : List Nat := l.foldr insertSorted []

/-- `.iter().copied().sorted().rev().collect_vec()`: descending sort. -/
def sortedRev (l : List Nat) : List Nat := (sortAsc l).reverse

/-- `DependencyGraph::keep_only`. -/
def keep_only (g : DependencyGraph) (ixes : List Nat) : Option DependencyGraph :=
  unchecked_keep_only g (sortedRev ixes)

/-- `DependencyGraph::kept_only`: consuming form of `keep_only`. -/
def kept_only (g : DependencyGraph) (ixes : List Nat) : Option DependencyGraph :=
  keep_only g ixes

/-- `BTreeSet::insert` on the sorted-list model (result of the returned
`bool` is never used by the source, so it is not modelled). -/
def setInsert (x : Nat) : List Nat → List Nat
  | [] => [x]
  | y :: ys =>
    if x < y then x :: y :: ys
    else if x = y then y :: ys
    else y :: setInsert x ys

/-- `BTreeSet::remove` on the sorted-list model: whether the element was
present, and the set without it. -/
def setRemove (x : Nat) : List Nat → Bool × List Nat
  | [] => (false, [])
  | y :: ys =>
    if x = y then (true, ys)
    else ((setRemove x ys).1, y :: (setRemove x ys).2)

/-- State of the sorting loop of `unchecked_topo_sort`: the disposable node
vector and the two `BTreeSet`s. -/
structure LoopState where
  nodes : List Node
  orphans : List Nat
  non_orphans : List Nat
  deriving DecidableEq, Repr

/-- The initial partition loop (source lines 104-107): each requested index
goes to `orphans` when its `ins` list is empty, to `non_orphans` otherwise. -/
def partitionOrphans : List Nat → List Node → List Nat → List Nat →
    Option (List Nat × List Nat)
  | [], _, orphans, non_orphans => some (orphans, non_orphans)
  | ix :: rest, nodes, orphans, non_orphans =>
    match nodes.get? ix with
    | none => none
    | some n =>
      if n.ins.isEmpty
      then partitionOrphans rest nodes (setInsert ix orphans) non_orphans
      else partitionOrphans rest nodes orphans (setInsert ix non_orphans)

/-- Body of `for ix2 in mem::take(&mut nodes[ix].out)` (source lines 124-130):
`ins.remove_item(&ix); if ins.is_empty() && non_orphans.remove(&ix2)
{ orphans.insert(ix2); }`. -/
def processOuts (ix : Nat) : List Nat → LoopState → Option LoopState
  | [], st => some st
  | ix2 :: rest, st =>
    match st.nodes.get? ix2 with
    | none => none
    | some n =>
      let ins2 := removeItem n.ins ix
      let nodes2 := st.nodes.set ix2 { n with ins := ins2 }
      if ins2.isEmpty then
        if (setRemove ix2 st.non_orphans).1 then
          processOuts ix rest
            ⟨nodes2, setInsert ix2 st.orphans, (setRemove ix2 st.non_orphans).2⟩
        else
          processOuts ix rest ⟨nodes2, st.orphans, (setRemove ix2 st.non_orphans).2⟩
      else
        processOuts ix rest ⟨nodes2, st.orphans, st.non_orphans⟩

/-- Termination measure of the sorting loop: each iteration strictly
decreases it (emitting an orphan removes one element; a forced promotion
moves one element from the double-weighted set to the single-weighted one). -/
def loopMeasure (orphans non_orphans : List Nat) : Nat :=
  orphans.length + 2 * non_orphans.length

/-- The `loop { ... }` of `unchecked_topo_sort` (source lines 109-133).
`fuel` bounds the number of iterations; `none` can arise from fuel
exhaustion (ruled out for the fuel chosen below) or an indexing panic. -/
def topoLoop : Nat → LoopState → List Nat → Option (List Nat)
  | 0, _, _ => none
  | fuel + 1, st, sorted =>
    match st.orphans.head? with
    | none =>
      match st.non_orphans.head? with
      | none => some sorted
      | some ix =>
        topoLoop fuel
          ⟨st.nodes, setInsert ix st.orphans, (setRemove ix st.non_orphans).2⟩ sorted
    | some ix =>
      match st.nodes.get? ix with
      | none => none
      | some n =>
        match processOuts ix n.out
            ⟨st.nodes.set ix { n with out := [] }, (setRemove ix st.orphans).2,
              st.non_orphans⟩ with
        | none => none
        | some st2 => topoLoop fuel st2 (sorted ++ [ix])

/-- `DependencyGraph::unchecked_topo_sort` (precondition: slice sorted in
reversed order). The fuel `loopMeasure + 1` is justified by the termination
theorem below: the loop always finishes within that many iterations. -/
def unchecked_topo_sort (g : DependencyGraph) (rev_sorted_ixes : List Nat) :
    Option (List Nat) :=
  match unchecked_kept_only g rev_sorted_ixes with
  | none => none
  | some this1 =>
    let max_elem := rev_sorted_ixes.head?.getD 0
    let this2 := grow this1 (1 + max_elem)
    match partitionOrphans rev_sorted_ixes this2.nodes [] [] with
    | none => none
    | some sets =>
      topoLoop (loopMeasure sets.1 sets.2 + 1) ⟨this2.nodes, sets.1, sets.2⟩ []

/-- `DependencyGraph::topo_sort`. -/
def topo_sort (g : DependencyGraph) (ixes : List Nat) : Option (List Nat) :=
  unchecked_topo_sort g (sortedRev ixes)

/-! ## Basic lemmas about the helper operations -/

theorem mem_insertSorted {y x : Nat} :
    ∀ {l : List Nat}, y ∈ insertSorted x l ↔ y = x ∨ y ∈ l
  | [] => by simp [insertSorted]
  | z :: zs => by
    simp only [insertSorted]
    split
    · simp
    · simp [mem_insertSorted (l := zs)]; tauto

theorem mem_sortAsc {y : Nat} : ∀ {l : List Nat}, y ∈ sortAsc l ↔ y ∈ l
  | [] => by simp [sortAsc]
  | z :: zs => by
    simp only [sortAsc, List.foldr_cons]
    rw [show List.foldr insertSorted [] zs = sortAsc zs from rfl] at *
    simp [mem_insertSorted, mem_sortAsc (l := zs)]

theorem mem_sortedRev {y : Nat} {l : List Nat} : y ∈ sortedRev l ↔ y ∈ l := by
  simp [sortedRev, mem_sortAsc]

theorem mem_setInsert {y x : Nat} :
    ∀ {l : List Nat}, y ∈ setInsert x l ↔ y = x ∨ y ∈ l
  | [] => by simp [setInsert]
  | z :: zs => by
    simp only [setInsert]
    split
    · simp
    · split
      · subst ‹x = z›; simp
      · simp [mem_setInsert (l := zs)]; tauto

theorem sorted_setInsert {x : Nat} :
    ∀ {l : List Nat}, List.Sorted (· < ·) l → List.Sorted (· < ·) (setInsert x l)
  | [], _ => List.sorted_singleton x
  | z :: zs, h => by
    simp only [setInsert]
    have hz := List.rel_of_sorted_cons h
    have hzs := List.Sorted.of_cons h
    split
    · refine List.sorted_cons.mpr ⟨?_, h⟩
      intro b hb
      rcases List.mem_cons.mp hb with rfl | hb
      · exact ‹x < b›
      · exact lt_trans ‹x < z› (hz b hb)
    · split
      · exact h
      · refine List.sorted_cons.mpr ⟨?_, sorted_setInsert hzs⟩
        intro b hb
        rcases mem_setInsert.mp hb with hbx | hbz
        · omega
        · exact hz b hbz

theorem length_setInsert_le (x : Nat) :
    ∀ l : List Nat, (setInsert x l).length ≤ l.length + 1
  | [] => by simp [setInsert]
  | z :: zs => by
    simp only [setInsert]
    split
    · simp
    · split
      · simp
      · have := length_setInsert_le x zs
        simp; omega

theorem setRemove_snd (x : Nat) : ∀ l : List Nat, (setRemove x l).2 = l.erase x
  | [] => rfl
  | z :: zs => by
    simp only [setRemove, List.erase_cons]
    split
    · subst ‹x = z›; simp
    · have hne : (z == x) = false := by simp; omega
      rw [hne]
      simp [setRemove_snd x zs]

theorem setRemove_fst (x : Nat) : ∀ l : List Nat, (setRemove x l).1 = true ↔ x ∈ l
  | [] => by simp [setRemove]
  | z :: zs => by
    simp only [setRemove]
    split
    · subst ‹x = z›; simp
    · simp only [List.mem_cons]
      rw [setRemove_fst x zs]
      constructor
      · exact Or.inr
      · rintro (h | h)
        · exact absurd h ‹¬ x = z›
        · exact h

theorem vecPop_fst_mem {l : List Nat} {v : Nat} (h : (vecPop l).1 = some v) : v ∈ l := by
  simp only [vecPop] at h
  rcases List.getLast?_eq_some_iff.mp h with ⟨ys, rfl⟩
  simp

theorem vecPop_snd_subset {l : List Nat} {y : Nat} (h : y ∈ (vecPop l).2) : y ∈ l := by
  simp only [vecPop] at h
  exact (List.dropLast_sublist l).mem h

/-! ## Concrete evaluations witnessing the positional-`remove` defect

`unchecked_keep_only` (source lines 74-75) calls `Vec::remove(ix)` — removal
by *position* `ix`, which panics when `ix` is not smaller than the edge
list's length — where the analogous sort-loop code (source line 126) uses
`Vec::remove_item(&ix)`, removal by *value*. -/

/-- C1: with the single recorded edge `0 → 5`, the subgraph restricted to
`{0}` is acyclic, yet `topo_sort([0])` panics (positional `Vec::remove(5)`
on the length-1 list `out = [5]` of node 0 while clearing node 5) instead of
returning the ordered sequence `[0]`. -/
theorem C1_topo_sort_panics_on_acyclic_input :
    topo_sort (insert_dependency ⟨[]⟩ 0 5) [0] = none := by decide

/-- C2: with the single recorded edge `1 → 3` and duplicate-free input `[1]`,
`topo_sort` panics rather than returning a permutation of the input. -/
theorem C2_topo_sort_panics_no_permutation :
    topo_sort (insert_dependency ⟨[]⟩ 1 3) [1] = none := by decide

/-- C3: `keep_only([0])` on the graph with the single edge `0 → 5` panics
(positional `Vec::remove` out of bounds), so the operations are not total
over their documented input domain. -/
theorem C3_keep_only_panics :
    keep_only (insert_dependency ⟨[]⟩ 0 5) [0] = none := by decide

/-- C4: on the graph with edges `2 → 1` and `0 → 1`, `keep_only([1, 2])`
clears node 0 but removes the wrong entry from node 1's `ins` list: the
positional `remove(0)` deletes the entry `2` (the edge between two *kept*
nodes) and leaves the entry `0` referring to the cleared node. The claim
requires `ins` of node 1 to end up `[2]`; the code produces `[0]`. -/
theorem C4_keep_only_removes_wrong_entry :
    (keep_only (insert_dependency (insert_dependency ⟨[]⟩ 2 1) 0 1) [1, 2]).map
      (fun g => (g.nodes.getD 1 Node.empty).ins) = some [0] := by decide

/-! ## Generic list helpers -/

theorem get?_set_self {α : Type} :
    ∀ (l : List α) (i : Nat) (a : α), i < l.length → (l.set i a).get? i = some a
  | _ :: _, 0, _, _ => rfl
  | _ :: xs, i + 1, a, h =>
    get?_set_self xs i a (by simpa using h)
  | [], i, a, h => by simp at h

theorem set_same {α : Type} :
    ∀ (l : List α) (i : Nat) (a : α), l.get? i = some a → l.set i a = l
  | x :: xs, 0, a, h => by simp at h; simp [h]
  | x :: xs, i + 1, a, h => by
    simp only [List.set_cons_succ, List.cons.injEq, true_and]
    exact set_same xs i a (by simpa using h)
  | [], i, a, h => by simp at h

theorem sorted_lt_nodup {l : List Nat} (h : List.Sorted (· < ·) l) : l.Nodup :=
  h.imp Nat.ne_of_lt

/-! ## C5: the sort loop always picks the smallest index -/

/-- C5: in each iteration of the sort loop, when an orphan exists the
head of the (sorted) orphan set — its smallest element — is removed and
appended to the output, and its outgoing edges are processed; when no orphan
exists but non-orphans remain, the smallest non-orphan is promoted to orphan
status; and concretely, with edges `0 → 1` and `1 → 0`,
`topo_sort([0, 1]) = [0, 1]`. -/
theorem C5_loop_smallest_first :
    (∀ (fuel : Nat) (nodes : List Node) (ix : Nat) (rest non_orphans sorted : List Nat),
      List.Sorted (· < ·) (ix :: rest) →
      (∀ y ∈ ix :: rest, ix ≤ y) ∧
      topoLoop (fuel + 1) ⟨nodes, ix :: rest, non_orphans⟩ sorted =
        (match nodes.get? ix with
         | none => none
         | some n =>
           match processOuts ix n.out
               ⟨nodes.set ix { n with out := [] }, rest, non_orphans⟩ with
           | none => none
           | some st2 => topoLoop fuel st2 (sorted ++ [ix]))) ∧
    (∀ (fuel : Nat) (nodes : List Node) (ix : Nat) (rest sorted : List Nat),
      List.Sorted (· < ·) (ix :: rest) →
      (∀ y ∈ ix :: rest, ix ≤ y) ∧
      topoLoop (fuel + 1) ⟨nodes, [], ix :: rest⟩ sorted =
        topoLoop fuel ⟨nodes, setInsert ix [], rest⟩ sorted) ∧
    topo_sort (insert_dependency (insert_dependency ⟨[]⟩ 0 1) 1 0) [0, 1] = some [0, 1] := by
  refine ⟨?_, ?_, by decide⟩
  · intro fuel nodes ix rest non_orphans sorted hs
    constructor
    · intro y hy
      rcases List.mem_cons.mp hy with rfl | hy
      · exact le_refl y
      · exact le_of_lt (List.rel_of_sorted_cons hs y hy)
    · simp only [topoLoop, List.head?_cons, setRemove_snd, List.erase_cons_head]
  · intro fuel nodes ix rest sorted hs
    constructor
    · intro y hy
      rcases List.mem_cons.mp hy with rfl | hy
      · exact le_refl y
      · exact le_of_lt (List.rel_of_sorted_cons hs y hy)
    · simp only [topoLoop, List.head?_nil, List.head?_cons, setRemove_snd,
        List.erase_cons_head]

/-- Witness for C5: one concrete emission step. -/
theorem C5_witness :
    (∀ y ∈ [0, 1], (0 : Nat) ≤ y) ∧
    topoLoop 1 ⟨[Node.empty, Node.empty], [0, 1], []⟩ [] =
      topoLoop 0 ⟨[Node.empty, Node.empty], [1], []⟩ [0] := by
  have h := C5_loop_smallest_first.1 0 [Node.empty, Node.empty] 0 [1] [] [] (by decide)
  exact ⟨h.1, h.2.trans (by decide)⟩

/-! ## C7: termination of the sort loop -/

/-- All loop-relevant indices fit the node vector: members of both sets
index into `nodes`, and every recorded outgoing edge does too.  This holds
for every state the public API can reach (indices are bounded by `grow`,
edges by `insert_dependency`). -/
def BoundedState (st : LoopState) : Prop :=
  (∀ x ∈ st.orphans, x < st.nodes.length) ∧
  (∀ x ∈ st.non_orphans, x < st.nodes.length) ∧
  (∀ n ∈ st.nodes, ∀ x ∈ n.out, x < st.nodes.length)

instance (st : LoopState) : Decidable (BoundedState st) := by
  unfold BoundedState; infer_instance

theorem processOuts_props {ix : Nat} :
    ∀ {outs : List Nat} {st : LoopState},
      (∀ x ∈ outs, x < st.nodes.length) → BoundedState st →
      ∃ st2, processOuts ix outs st = some st2 ∧ BoundedState st2 ∧
        st2.nodes.length = st.nodes.length ∧
        loopMeasure st2.orphans st2.non_orphans ≤
          loopMeasure st.orphans st.non_orphans
  | [], st => fun _ hb => ⟨st, rfl, hb, rfl, le_refl _⟩
  | ix2 :: rest, st => by
    intro houts hb
    obtain ⟨ho, hno, hout⟩ := hb
    have hix2 : ix2 < st.nodes.length := houts ix2 (by simp)
    obtain ⟨n, hn⟩ : ∃ n, st.nodes.get? ix2 = some n := ⟨_, List.get?_eq_get hix2⟩
    have hnmem : n ∈ st.nodes := List.get?_mem hn
    set ins2 := removeItem n.ins ix with hins2
    set nodes2 := st.nodes.set ix2 { n with ins := ins2 } with hnodes2
    have hlen2 : nodes2.length = st.nodes.length := List.length_set ..
    have hout2 : ∀ m ∈ nodes2, ∀ x ∈ m.out, x < nodes2.length := by
      intro m hm x hx
      rw [hlen2]
      rcases List.mem_or_eq_of_mem_set hm with hm | rfl
      · exact hout m hm x hx
      · exact hout n hnmem x hx
    simp only [processOuts, hn]
    by_cases he : ins2.isEmpty
    · rw [if_pos (by rw [← hins2]; exact he)]
      by_cases hr : (setRemove ix2 st.non_orphans).1 = true
      · rw [if_pos hr]
        have hmem : ix2 ∈ st.non_orphans := (setRemove_fst ix2 st.non_orphans).mp hr
        have hrec := @processOuts_props ix rest
          ⟨nodes2, setInsert ix2 st.orphans, (setRemove ix2 st.non_orphans).2⟩
          (by intro x hx; rw [hlen2]; exact houts x (by simp [hx]))
          (by
            refine ⟨?_, ?_, hout2⟩
            · intro x hx
              rw [hlen2]
              rcases mem_setInsert.mp hx with rfl | hx
              · exact hno x hmem
              · exact ho x hx
            · intro x hx
              rw [hlen2]
              rw [setRemove_snd] at hx
              exact hno x ((List.erase_sublist ix2 st.non_orphans).mem hx))
        obtain ⟨st2, h1, h2, h3, h4⟩ := hrec
        refine ⟨st2, h1, h2, by rw [h3, hlen2], le_trans h4 ?_⟩
        simp only [loopMeasure, setRemove_snd]
        have h5 := length_setInsert_le ix2 st.orphans
        have h6 := List.length_erase_of_mem hmem
        have h7 := List.length_pos_of_mem hmem
        omega
      · rw [if_neg hr]
        have hnmem2 : ix2 ∉ st.non_orphans := by
          intro hc
          exact hr ((setRemove_fst ix2 st.non_orphans).mpr hc)
        have heq : (setRemove ix2 st.non_orphans).2 = st.non_orphans := by
          rw [setRemove_snd]
          exact List.erase_of_not_mem hnmem2
        rw [heq]
        have hrec := @processOuts_props ix rest
          ⟨nodes2, st.orphans, st.non_orphans⟩
          (by intro x hx; rw [hlen2]; exact houts x (by simp [hx]))
          (by
            refine ⟨?_, ?_, hout2⟩
            · intro x hx; rw [hlen2]; exact ho x hx
            · intro x hx; rw [hlen2]; exact hno x hx)
        obtain ⟨st2, h1, h2, h3, h4⟩ := hrec
        exact ⟨st2, h1, h2, by rw [h3, hlen2], h4⟩
    · rw [if_neg (by rw [← hins2]; exact he)]
      have hrec := @processOuts_props ix rest
        ⟨nodes2, st.orphans, st.non_orphans⟩
        (by intro x hx; rw [hlen2]; exact houts x (by simp [hx]))
        (by
          refine ⟨?_, ?_, hout2⟩
          · intro x hx; rw [hlen2]; exact ho x hx
          · intro x hx; rw [hlen2]; exact hno x hx)
      obtain ⟨st2, h1, h2, h3, h4⟩ := hrec
      exact ⟨st2, h1, h2, by rw [h3, hlen2], h4⟩

theorem topoLoop_total :
    ∀ (fuel : Nat) (st : LoopState) (sorted : List Nat),
      BoundedState st → loopMeasure st.orphans st.non_orphans < fuel →
      ∃ l, topoLoop fuel st sorted = some l
  | 0, _, _, _, hm => absurd hm (by omega)
  | fuel + 1, st, sorted, hb, hm => by
    obtain ⟨ho, hno, hout⟩ := hb
    match hor : st.orphans with
    | [] =>
      match hnor : st.non_orphans with
      | [] => exact ⟨sorted, by simp [topoLoop, hor, hnor]⟩
      | ix :: rest =>
        have hrec := topoLoop_total fuel
          ⟨st.nodes, setInsert ix [], (setRemove ix (ix :: rest)).2⟩ sorted
          (by
            refine ⟨?_, ?_, hout⟩
            · intro x hx
              rcases mem_setInsert.mp hx with rfl | hx
              · exact hno x (by rw [hnor]; simp)
              · simp at hx
            · intro x hx
              simp only [setRemove_snd, List.erase_cons_head] at hx
              exact hno x (by rw [hnor]; simp [hx]))
          (by
            simp only [loopMeasure, setRemove_snd, List.erase_cons_head, setInsert]
            rw [hor, hnor] at hm
            simp only [loopMeasure, List.length_nil, List.length_cons] at hm
            simp
            omega)
        obtain ⟨l, hl⟩ := hrec
        refine ⟨l, ?_⟩
        simp only [topoLoop, hor, hnor, List.head?_nil, List.head?_cons]
        exact hl
    | ix :: rest =>
      have hix : ix < st.nodes.length := ho ix (by rw [hor]; simp)
      obtain ⟨n, hn⟩ : ∃ n, st.nodes.get? ix = some n := ⟨_, List.get?_eq_get hix⟩
      have hnmem : n ∈ st.nodes := List.get?_mem hn
      have hpo := @processOuts_props ix n.out
        ⟨st.nodes.set ix { n with out := [] }, (setRemove ix (ix :: rest)).2,
          st.non_orphans⟩
        (by
          intro x hx
          rw [List.length_set]
          exact hout n hnmem x hx)
        (by
          refine ⟨?_, ?_, ?_⟩
          · intro x hx
            rw [List.length_set]
            simp only [setRemove_snd, List.erase_cons_head] at hx
            exact ho x (by rw [hor]; simp [hx])
          · intro x hx
            rw [List.length_set]
            exact hno x hx
          · intro m hm x hx
            rw [List.length_set]
            rcases List.mem_or_eq_of_mem_set hm with hm | rfl
            · exact hout m hm x hx
            · simp at hx)
      obtain ⟨st2, h1, h2, h3, h4⟩ := hpo
      have hrec := topoLoop_total fuel st2 (sorted ++ [ix]) h2
        (by
          refine lt_of_le_of_lt h4 ?_
          simp only [loopMeasure, setRemove_snd, List.erase_cons_head]
          rw [hor] at hm
          simp only [loopMeasure, List.length_cons] at hm
          omega)
      obtain ⟨l, hl⟩ := hrec
      refine ⟨l, ?_⟩
      simp only [topoLoop, hor, List.head?_cons, hn]
      rw [h1]
      exact hl

/-- C7: the sort loop of `unchecked_topo_sort` always terminates, even on
cyclic or self-referential edge data: starting from any in-bounds state, it
finishes within `loopMeasure + 1` iterations (the fuel `unchecked_topo_sort`
supplies), because a forced promotion moves a non-orphan to the orphan set
and every emission shrinks the orphan set; concretely, sorting over the
self-edge `0 → 0` terminates with `topo_sort([0, 1, 2]) = [1, 2, 0]`. -/
theorem C7_sort_loop_terminates :
    (∀ (st : LoopState) (sorted : List Nat), BoundedState st →
      ∃ l, topoLoop (loopMeasure st.orphans st.non_orphans + 1) st sorted = some l) ∧
    topo_sort (insert_dependency ⟨[]⟩ 0 0) [0, 1, 2] = some [1, 2, 0] := by
  refine ⟨?_, by decide⟩
  intro st sorted hb
  exact topoLoop_total _ st sorted hb (Nat.lt_succ_self _)

/-- Witness for C7: the loop terminates on a concrete two-cycle state. -/
theorem C7_witness :
    ∃ l, topoLoop (loopMeasure [] [0, 1] + 1)
      ⟨[⟨[1], [1]⟩, ⟨[0], [0]⟩], [], [0, 1]⟩ [] = some l :=
  C7_sort_loop_terminates.1 ⟨[⟨[1], [1]⟩, ⟨[0], [0]⟩], [], [0, 1]⟩ [] (by decide)

/-! ## C9/C10: the loop emits each working-set element exactly once -/

/-- Invariant of the sort loop: output seen so far has no duplicates, both
sets are strictly sorted, and output and the two sets are pairwise
disjoint. -/
def LoopInv (st : LoopState) (sorted : List Nat) : Prop :=
  sorted.Nodup ∧ List.Sorted (· < ·) st.orphans ∧
  List.Sorted (· < ·) st.non_orphans ∧
  (∀ x ∈ st.orphans, x ∉ sorted) ∧ (∀ x ∈ st.non_orphans, x ∉ sorted) ∧
  (∀ x ∈ st.orphans, x ∉ st.non_orphans)

theorem processOuts_inv {ix : Nat} :
    ∀ {outs : List Nat} {st st2 : LoopState} {sorted : List Nat},
      processOuts ix outs st = some st2 → LoopInv st sorted →
      LoopInv st2 sorted ∧
      (∀ x, (x ∈ st2.orphans ∨ x ∈ st2.non_orphans) ↔
        (x ∈ st.orphans ∨ x ∈ st.non_orphans))
  | [], st, st2, sorted => by
    intro h hinv
    simp only [processOuts, Option.some.injEq] at h
    subst h
    exact ⟨hinv, fun x => Iff.rfl⟩
  | ix2 :: rest, st, st2, sorted => by
    intro h hinv
    obtain ⟨hd, hso, hsno, hos, hnos, hdisj⟩ := hinv
    have hndno : st.non_orphans.Nodup := sorted_lt_nodup hsno
    cases hn : st.nodes.get? ix2 with
    | none =>
      simp only [processOuts, hn] at h
      exact Option.noConfusion h
    | some n =>
      simp only [processOuts, hn] at h
      by_cases he : (removeItem n.ins ix).isEmpty
      · rw [if_pos he] at h
        by_cases hr : (setRemove ix2 st.non_orphans).1 = true
        · rw [if_pos hr] at h
          have hmem : ix2 ∈ st.non_orphans := (setRemove_fst ix2 st.non_orphans).mp hr
          have hrec := @processOuts_inv ix rest _ _ _ h
            (by
              refine ⟨hd, sorted_setInsert hso, ?_, ?_, ?_, ?_⟩
              · rw [setRemove_snd]
                exact List.Pairwise.sublist (List.erase_sublist ix2 st.non_orphans) hsno
              · intro x hx
                rcases mem_setInsert.mp hx with rfl | hx
                · exact hnos x hmem
                · exact hos x hx
              · intro x hx
                rw [setRemove_snd] at hx
                exact hnos x ((List.erase_sublist ix2 st.non_orphans).mem hx)
              · intro x hx hc
                rw [setRemove_snd] at hc
                obtain ⟨hne, hcm⟩ := hndno.mem_erase_iff.mp hc
                rcases mem_setInsert.mp hx with rfl | hx
                · exact hne rfl
                · exact hdisj x hx hcm)
          refine ⟨hrec.1, fun x => (hrec.2 x).trans ?_⟩
          simp only [mem_setInsert, setRemove_snd, hndno.mem_erase_iff]
          by_cases hxe : x = ix2
          · subst hxe
            simp only [true_or, true_iff]
            exact Or.inr hmem
          · tauto
        · rw [if_neg hr] at h
          have hnm : ix2 ∉ st.non_orphans := fun hc =>
            hr ((setRemove_fst ix2 st.non_orphans).mpr hc)
          have heq : (setRemove ix2 st.non_orphans).2 = st.non_orphans := by
            rw [setRemove_snd]
            exact List.erase_of_not_mem hnm
          rw [heq] at h
          have hrec := @processOuts_inv ix rest _ _ _ h
            ⟨hd, hso, hsno, hos, hnos, hdisj⟩
          exact hrec
      · rw [if_neg he] at h
        have hrec := @processOuts_inv ix rest _ _ _ h
          ⟨hd, hso, hsno, hos, hnos, hdisj⟩
        exact hrec

theorem topoLoop_mem :
    ∀ (fuel : Nat) (st : LoopState) (sorted l : List Nat),
      topoLoop fuel st sorted = some l → LoopInv st sorted →
      l.Nodup ∧ ∀ x, x ∈ l ↔ (x ∈ sorted ∨ x ∈ st.orphans ∨ x ∈ st.non_orphans)
  | 0, st, sorted, l => by intro h; simp [topoLoop] at h
  | fuel + 1, st, sorted, l => by
    intro h hinv
    obtain ⟨nds, orph, norph⟩ := st
    obtain ⟨hd, hso, hsno, hos, hnos, hdisj⟩ := hinv
    cases orph with
    | nil =>
      cases norph with
      | nil =>
        simp only [topoLoop, List.head?_nil, Option.some.injEq] at h
        subst h
        refine ⟨hd, fun x => ?_⟩
        simp
      | cons ix rest =>
        simp only [topoLoop, List.head?_nil, List.head?_cons, setRemove_snd,
          List.erase_cons_head] at h
        have hnod : (ix :: rest).Nodup := sorted_lt_nodup hsno
        have hrec := topoLoop_mem fuel ⟨nds, setInsert ix [], rest⟩ sorted l h
          (by
            refine ⟨hd, ?_, hsno.of_cons, ?_, ?_, ?_⟩
            · exact sorted_setInsert (List.sorted_nil)
            · intro x hx
              rcases mem_setInsert.mp hx with rfl | hx
              · exact hnos x (by simp)
              · simp at hx
            · intro x hx
              exact hnos x (by simp [hx])
            · intro x hx hc
              rcases mem_setInsert.mp hx with rfl | hx
              · exact (List.nodup_cons.mp hnod).1 hc
              · simp at hx)
        refine ⟨hrec.1, fun x => (hrec.2 x).trans ?_⟩
        simp only [mem_setInsert, List.mem_cons, List.not_mem_nil, or_false]
        tauto
    | cons ix rest =>
      have hnod : (ix :: rest).Nodup := sorted_lt_nodup hso
      simp only [topoLoop, List.head?_cons, setRemove_snd, List.erase_cons_head] at h
      cases hn : nds.get? ix with
      | none =>
        simp only [hn] at h
        exact Option.noConfusion h
      | some n =>
        simp only [hn] at h
        cases hpo : processOuts ix n.out
            ⟨nds.set ix { n with out := [] }, rest, norph⟩ with
        | none =>
          simp only [hpo] at h
          exact Option.noConfusion h
        | some stm =>
          simp only [hpo] at h
          have hixs : ix ∉ sorted := hos ix (by simp)
          have hixno : ix ∉ norph := hdisj ix (by simp)
          have hinv2 : LoopInv ⟨nds.set ix { n with out := [] }, rest,
              norph⟩ (sorted ++ [ix]) := by
            refine ⟨?_, hso.of_cons, hsno, ?_, ?_, ?_⟩
            · rw [List.nodup_append]
              exact ⟨hd, List.nodup_singleton ix, by
                intro a ha hb
                simp at hb
                subst hb
                exact hixs ha⟩
            · intro x hx
              simp only [List.mem_append, List.mem_singleton]
              rintro (hc | rfl)
              · exact hos x (by simp [hx]) hc
              · exact (List.nodup_cons.mp hnod).1 hx
            · intro x hx
              simp only [List.mem_append, List.mem_singleton]
              rintro (hc | rfl)
              · exact hnos x hx hc
              · exact hixno hx
            · intro x hx
              exact hdisj x (by simp [hx])
          have hpi := @processOuts_inv ix n.out _ _ _ hpo hinv2
          have hrec := topoLoop_mem fuel stm (sorted ++ [ix]) l h hpi.1
          refine ⟨hrec.1, fun x => (hrec.2 x).trans ?_⟩
          rw [hpi.2 x]
          simp only [List.mem_append, List.mem_singleton, List.mem_cons]
          tauto

theorem partitionOrphans_props :
    ∀ (ixes : List Nat) (nodes : List Node) (o no o2 no2 : List Nat),
      partitionOrphans ixes nodes o no = some (o2, no2) →
      List.Sorted (· < ·) o → List.Sorted (· < ·) no →
      (∀ x ∈ o, ∃ n, nodes.get? x = some n ∧ n.ins.isEmpty = true) →
      (∀ x ∈ no, ∃ n, nodes.get? x = some n ∧ n.ins.isEmpty = false) →
      List.Sorted (· < ·) o2 ∧ List.Sorted (· < ·) no2 ∧
      (∀ x ∈ o2, ∃ n, nodes.get? x = some n ∧ n.ins.isEmpty = true) ∧
      (∀ x ∈ no2, ∃ n, nodes.get? x = some n ∧ n.ins.isEmpty = false) ∧
      (∀ x, (x ∈ o2 ∨ x ∈ no2) ↔ (x ∈ ixes ∨ x ∈ o ∨ x ∈ no))
  | [], nodes, o, no, o2, no2 => by
    intro h hso hsno hoc hnoc
    simp only [partitionOrphans, Option.some.injEq, Prod.mk.injEq] at h
    obtain ⟨rfl, rfl⟩ := h
    exact ⟨hso, hsno, hoc, hnoc, by simp⟩
  | ix :: rest, nodes, o, no, o2, no2 => by
    intro h hso hsno hoc hnoc
    cases hn : nodes.get? ix with
    | none =>
      simp only [partitionOrphans, hn] at h
      exact Option.noConfusion h
    | some n =>
      simp only [partitionOrphans, hn] at h
      by_cases he : n.ins.isEmpty
      · rw [if_pos he] at h
        have hrec := partitionOrphans_props rest nodes (setInsert ix o) no o2 no2 h
          (sorted_setInsert hso) hsno
          (by
            intro x hx
            rcases mem_setInsert.mp hx with rfl | hx
            · exact ⟨n, hn, he⟩
            · exact hoc x hx)
          hnoc
        refine ⟨hrec.1, hrec.2.1, hrec.2.2.1, hrec.2.2.2.1, fun x => ?_⟩
        rw [hrec.2.2.2.2 x]
        simp only [mem_setInsert, List.mem_cons]
        tauto
      · rw [if_neg he] at h
        have hrec := partitionOrphans_props rest nodes o (setInsert ix no) o2 no2 h
          hso (sorted_setInsert hsno) hoc
          (by
            intro x hx
            rcases mem_setInsert.mp hx with rfl | hx
            · exact ⟨n, hn, by simpa using he⟩
            · exact hnoc x hx)
        refine ⟨hrec.1, hrec.2.1, hrec.2.2.1, hrec.2.2.2.1, fun x => ?_⟩
        rw [hrec.2.2.2.2 x]
        simp only [mem_setInsert, List.mem_cons]
        tauto

/-- Shared consequence: whenever `topo_sort` returns a list, that list has
no duplicates and contains exactly the (distinct) input indices. -/
theorem topo_sort_some_mem (g : DependencyGraph) (S l : List Nat)
    (h : topo_sort g S = some l) : l.Nodup ∧ ∀ x, x ∈ l ↔ x ∈ S := by
  unfold topo_sort unchecked_topo_sort at h
  cases hk : unchecked_kept_only g (sortedRev S) with
  | none => rw [hk] at h; cases h
  | some t1 =>
    rw [hk] at h
    simp only at h
    cases hp : partitionOrphans (sortedRev S)
        (grow t1 (1 + (sortedRev S).head?.getD 0)).nodes [] [] with
    | none => rw [hp] at h; cases h
    | some sets =>
      simp only [hp] at h
      have hpart := partitionOrphans_props (sortedRev S)
        (grow t1 (1 + (sortedRev S).head?.getD 0)).nodes [] [] sets.1 sets.2
        (by rw [hp]) List.sorted_nil List.sorted_nil (by simp) (by simp)
      have hdisj : ∀ x ∈ sets.1, x ∉ sets.2 := by
        intro x hx hc
        obtain ⟨n, hn, he⟩ := hpart.2.2.1 x hx
        obtain ⟨n2, hn2, he2⟩ := hpart.2.2.2.1 x hc
        rw [hn] at hn2
        cases hn2
        rw [he] at he2
        cases he2
      have hloop := topoLoop_mem _ ⟨(grow t1 (1 + (sortedRev S).head?.getD 0)).nodes,
          sets.1, sets.2⟩ [] l h
        ⟨List.nodup_nil, hpart.1, hpart.2.1, by simp, by simp, hdisj⟩
      refine ⟨hloop.1, fun x => (hloop.2 x).trans ?_⟩
      show (x ∈ [] ∨ x ∈ sets.1 ∨ x ∈ sets.2) ↔ x ∈ S
      have hu := hpart.2.2.2.2 x
      simp only [List.not_mem_nil, or_false, false_or]
      rw [hu]
      simp [mem_sortedRev]

/-- C9: when the input of `topo_sort` contains duplicate indices, the output
contains each distinct input index exactly once — the working sets are
ordered sets keyed by index — so the output length is the number of distinct
input indices, not the input length. -/
theorem C9_duplicates_collapsed (g : DependencyGraph) (S l : List Nat)
    (h : topo_sort g S = some l) :
    l.Nodup ∧ (∀ x, x ∈ l ↔ x ∈ S) ∧ l.length = S.dedup.length := by
  obtain ⟨hnd, hmem⟩ := topo_sort_some_mem g S l h
  refine ⟨hnd, hmem, ?_⟩
  have hperm : l.Perm S.dedup :=
    (List.perm_ext_iff_of_nodup hnd (List.nodup_dedup S)).mpr
      (fun a => (hmem a).trans (List.mem_dedup).symm)
  exact hperm.length_eq

/-- Witness for C9: `topo_sort` over the empty graph on input `[2, 2, 5]`
returns `[2, 5]`, whose length is that of the deduplicated input. -/
theorem C9_witness : [2, 5].length = ([2, 2, 5] : List Nat).dedup.length :=
  (C9_duplicates_collapsed ⟨[]⟩ [2, 2, 5] [2, 5] (by decide)).2.2

/-- C10: an index at or beyond the current storage size is not omitted from
the result: the disposable copy is grown to cover it (second conjunct: after
`grow (1 + k)` the index `k` holds an edge-free node record) and the index
appears in the output (first conjunct). -/
theorem C10_overlarge_index_in_output :
    (∀ (g : DependencyGraph) (S l : List Nat) (x : Nat),
      topo_sort g S = some l → x ∈ S → g.nodes.length ≤ x → x ∈ l) ∧
    (∀ (g : DependencyGraph) (k : Nat), g.nodes.length ≤ k →
      (grow g (1 + k)).nodes.get? k = some Node.empty) := by
  constructor
  · intro g S l x h hx _
    exact ((topo_sort_some_mem g S l h).2 x).mpr hx
  · intro g k hk
    unfold grow
    rw [if_pos (by omega)]
    simp only
    rw [List.get?_append_right hk, List.get?_eq_get (by simp; omega)]
    simp

/-- Witness for C10: over the empty graph (size 0), index 5 is in the
output of `topo_sort([5])`. -/
theorem C10_witness : (5 : Nat) ∈ ([5] : List Nat) :=
  C10_overlarge_index_in_output.1 ⟨[]⟩ [5] [5] 5 (by decide) (by decide) (by decide)

/-! ## C6: `keep_only` is idempotent on success, so pre-restricting commutes
with `topo_sort` -/

theorem removeOutEdges_pres_empty {ix j : Nat} :
    ∀ {l : List Nat} {nodes nodes' : List Node},
      removeOutEdges ix l nodes = some nodes' →
      nodes.get? j = some Node.empty → nodes'.get? j = some Node.empty
  | [], nodes, nodes' => by
    intro h he
    simp only [removeOutEdges, Option.some.injEq] at h
    subst h
    exact he
  | ix2 :: rest, nodes, nodes' => by
    intro h he
    cases hn : nodes.get? ix2 with
    | none =>
      simp only [removeOutEdges, hn] at h
      exact Option.noConfusion h
    | some n =>
      simp only [removeOutEdges, hn] at h
      cases hv : vecRemove n.out ix with
      | none =>
        simp only [hv] at h
        exact Option.noConfusion h
      | some out2 =>
        simp only [hv] at h
        by_cases hj : ix2 = j
        · subst hj
          rw [he] at hn
          injection hn with hn
          subst hn
          simp [vecRemove, Node.empty] at hv
        · have he2 : (nodes.set ix2 { n with out := out2 }).get? j = some Node.empty := by
            rw [List.get?_set_ne _ _ hj]
            exact he
          exact removeOutEdges_pres_empty h he2

theorem removeInsEdges_pres_empty {ix j : Nat} :
    ∀ {l : List Nat} {nodes nodes' : List Node},
      removeInsEdges ix l nodes = some nodes' →
      nodes.get? j = some Node.empty → nodes'.get? j = some Node.empty
  | [], nodes, nodes' => by
    intro h he
    simp only [removeInsEdges, Option.some.injEq] at h
    subst h
    exact he
  | ix2 :: rest, nodes, nodes' => by
    intro h he
    cases hn : nodes.get? ix2 with
    | none =>
      simp only [removeInsEdges, hn] at h
      exact Option.noConfusion h
    | some n =>
      simp only [removeInsEdges, hn] at h
      cases hv : vecRemove n.ins ix with
      | none =>
        simp only [hv] at h
        exact Option.noConfusion h
      | some ins2 =>
        simp only [hv] at h
        by_cases hj : ix2 = j
        · subst hj
          rw [he] at hn
          injection hn with hn
          subst hn
          simp [vecRemove, Node.empty] at hv
        · have he2 : (nodes.set ix2 { n with ins := ins2 }).get? j = some Node.empty := by
            rw [List.get?_set_ne _ _ hj]
            exact he
          exact removeInsEdges_pres_empty h he2

theorem clearNode_empty_at {nodes nodes' : List Node} {ix : Nat}
    (h : clearNode nodes ix = some nodes') : nodes'.get? ix = some Node.empty := by
  cases hn : nodes.get? ix with
  | none =>
    simp only [clearNode, hn] at h
    exact Option.noConfusion h
  | some node =>
    simp only [clearNode, hn] at h
    cases hro : removeOutEdges ix node.ins (nodes.set ix Node.empty) with
    | none =>
      simp only [hro] at h
      exact Option.noConfusion h
    | some nodes2 =>
      simp only [hro] at h
      have hset : (nodes.set ix Node.empty).get? ix = some Node.empty :=
        get?_set_self nodes ix Node.empty (List.get?_eq_some.mp hn).1
      exact removeInsEdges_pres_empty h (removeOutEdges_pres_empty hro hset)

theorem clearNode_pres_empty {nodes nodes' : List Node} {ix j : Nat}
    (h : clearNode nodes ix = some nodes') (he : nodes.get? j = some Node.empty) :
    nodes'.get? j = some Node.empty := by
  by_cases hj : ix = j
  · subst hj
    exact clearNode_empty_at h
  · cases hn : nodes.get? ix with
    | none =>
      simp only [clearNode, hn] at h
      exact Option.noConfusion h
    | some node =>
      simp only [clearNode, hn] at h
      cases hro : removeOutEdges ix node.ins (nodes.set ix Node.empty) with
      | none =>
        simp only [hro] at h
        exact Option.noConfusion h
      | some nodes2 =>
        simp only [hro] at h
        have he2 : (nodes.set ix Node.empty).get? j = some Node.empty := by
          rw [List.get?_set_ne _ _ hj]
          exact he
        exact removeInsEdges_pres_empty h (removeOutEdges_pres_empty hro he2)

theorem clearNode_of_empty {nodes : List Node} {ix : Nat}
    (he : nodes.get? ix = some Node.empty) : clearNode nodes ix = some nodes := by
  have hset : nodes.set ix Node.empty = nodes := set_same nodes ix Node.empty he
  simp only [clearNode, he]
  rw [hset]
  rfl

theorem ukoGo_pres_empty {j : Nat} :
    ∀ (fuel ix : Nat) (keep : List Nat) (next : Option Nat)
      (nodes nodes' : List Node),
      ukoGo fuel ix keep next nodes = some nodes' →
      nodes.get? j = some Node.empty → nodes'.get? j = some Node.empty
  | 0, ix, keep, next, nodes, nodes' => by
    intro h he
    simp only [ukoGo, Option.some.injEq] at h
    subst h
    exact he
  | fuel + 1, ix, keep, next, nodes, nodes' => by
    intro h he
    simp only [ukoGo] at h
    by_cases hx : next = some ix
    · rw [if_pos hx] at h
      exact ukoGo_pres_empty fuel _ _ _ _ _ h he
    · rw [if_neg hx] at h
      cases hc : clearNode nodes ix with
      | none =>
        simp only [hc] at h
        exact Option.noConfusion h
      | some nodes2 =>
        simp only [hc] at h
        exact ukoGo_pres_empty fuel _ _ _ _ _ h (clearNode_pres_empty hc he)

theorem ukoGo_idem :
    ∀ (fuel ix : Nat) (keep : List Nat) (next : Option Nat)
      (nodes nodes' : List Node),
      ukoGo fuel ix keep next nodes = some nodes' →
      ukoGo fuel ix keep next nodes' = some nodes'
  | 0, ix, keep, next, nodes, nodes' => by
    intro h
    simp only [ukoGo, Option.some.injEq] at h
    subst h
    rfl
  | fuel + 1, ix, keep, next, nodes, nodes' => by
    intro h
    simp only [ukoGo] at h ⊢
    by_cases hx : next = some ix
    · rw [if_pos hx] at h ⊢
      exact ukoGo_idem fuel _ _ _ _ _ h
    · rw [if_neg hx] at h ⊢
      cases hc : clearNode nodes ix with
      | none =>
        simp only [hc] at h
        exact Option.noConfusion h
      | some nodes2 =>
        simp only [hc] at h
        have hix : nodes'.get? ix = some Node.empty :=
          ukoGo_pres_empty fuel _ _ _ _ _ h (clearNode_empty_at hc)
        simp only [clearNode_of_empty hix]
        exact ukoGo_idem fuel _ _ _ _ _ h

theorem removeOutEdges_length {ix : Nat} :
    ∀ {l : List Nat} {nodes nodes' : List Node},
      removeOutEdges ix l nodes = some nodes' → nodes'.length = nodes.length
  | [], nodes, nodes' => by
    intro h
    simp only [removeOutEdges, Option.some.injEq] at h
    subst h
    rfl
  | ix2 :: rest, nodes, nodes' => by
    intro h
    cases hn : nodes.get? ix2 with
    | none =>
      simp only [removeOutEdges, hn] at h
      exact Option.noConfusion h
    | some n =>
      simp only [removeOutEdges, hn] at h
      cases hv : vecRemove n.out ix with
      | none =>
        simp only [hv] at h
        exact Option.noConfusion h
      | some out2 =>
        simp only [hv] at h
        rw [removeOutEdges_length h]
        exact List.length_set ..

theorem removeInsEdges_length {ix : Nat} :
    ∀ {l : List Nat} {nodes nodes' : List Node},
      removeInsEdges ix l nodes = some nodes' → nodes'.length = nodes.length
  | [], nodes, nodes' => by
    intro h
    simp only [removeInsEdges, Option.some.injEq] at h
    subst h
    rfl
  | ix2 :: rest, nodes, nodes' => by
    intro h
    cases hn : nodes.get? ix2 with
    | none =>
      simp only [removeInsEdges, hn] at h
      exact Option.noConfusion h
    | some n =>
      simp only [removeInsEdges, hn] at h
      cases hv : vecRemove n.ins ix with
      | none =>
        simp only [hv] at h
        exact Option.noConfusion h
      | some ins2 =>
        simp only [hv] at h
        rw [removeInsEdges_length h]
        exact List.length_set ..

theorem clearNode_length {nodes nodes' : List Node} {ix : Nat}
    (h : clearNode nodes ix = some nodes') : nodes'.length = nodes.length := by
  cases hn : nodes.get? ix with
  | none =>
    simp only [clearNode, hn] at h
    exact Option.noConfusion h
  | some node =>
    simp only [clearNode, hn] at h
    cases hro : removeOutEdges ix node.ins (nodes.set ix Node.empty) with
    | none =>
      simp only [hro] at h
      exact Option.noConfusion h
    | some nodes2 =>
      simp only [hro] at h
      rw [removeInsEdges_length h, removeOutEdges_length hro]
      exact List.length_set ..

theorem ukoGo_length :
    ∀ (fuel ix : Nat) (keep : List Nat) (next : Option Nat)
      (nodes nodes' : List Node),
      ukoGo fuel ix keep next nodes = some nodes' → nodes'.length = nodes.length
  | 0, ix, keep, next, nodes, nodes' => by
    intro h
    simp only [ukoGo, Option.some.injEq] at h
    subst h
    rfl
  | fuel + 1, ix, keep, next, nodes, nodes' => by
    intro h
    simp only [ukoGo] at h
    by_cases hx : next = some ix
    · rw [if_pos hx] at h
      exact ukoGo_length fuel _ _ _ _ _ h
    · rw [if_neg hx] at h
      cases hc : clearNode nodes ix with
      | none =>
        simp only [hc] at h
        exact Option.noConfusion h
      | some nodes2 =>
        simp only [hc] at h
        rw [ukoGo_length fuel _ _ _ _ _ h]
        exact clearNode_length hc

theorem unchecked_keep_only_idem {g g' : DependencyGraph} {r : List Nat}
    (h : unchecked_keep_only g r = some g') : unchecked_keep_only g' r = some g' := by
  unfold unchecked_keep_only at h ⊢
  cases hu : ukoGo g.nodes.length 0 (vecPop r).2 (vecPop r).1 g.nodes with
  | none =>
    simp only [hu] at h
    exact Option.noConfusion h
  | some nodes =>
    simp only [hu, Option.some.injEq] at h
    subst h
    have hlen : (DependencyGraph.mk nodes).nodes.length = g.nodes.length :=
      ukoGo_length _ _ _ _ _ _ hu
    rw [hlen]
    simp only [ukoGo_idem _ _ _ _ _ _ hu]

/-- C6: restricting the graph with `keep_only(S)` first and then sorting the
same subset yields exactly the result of `topo_sort(S)` on the original
graph (a panic in the shared restriction step propagates identically on both
sides). -/
theorem C6_subset_stability :
    ∀ (g : DependencyGraph) (S : List Nat),
      (match keep_only g S with
       | none => none
       | some g2 => topo_sort g2 S) = topo_sort g S := by
  intro g S
  cases hk : keep_only g S with
  | none =>
    have hk1 : unchecked_kept_only g (sortedRev S) = none := hk
    simp only [topo_sort, unchecked_topo_sort, hk1]
  | some g1 =>
    have hk1 : unchecked_kept_only g (sortedRev S) = some g1 := hk
    have hk2 : unchecked_kept_only g1 (sortedRev S) = some g1 :=
      unchecked_keep_only_idem hk
    simp only [topo_sort, unchecked_topo_sort, hk1, hk2]

/-! ## C8: backing storage never shrinks -/

theorem grow_length (g : DependencyGraph) (k : Nat) :
    (grow g k).nodes.length = max g.nodes.length k := by
  unfold grow
  split
  · rw [Nat.max_eq_right (by omega)]
    simp only [List.length_append, List.length_replicate]
    omega
  · rw [Nat.max_eq_left (by omega)]

theorem insert_dependency_length (g : DependencyGraph) (a b : Nat) :
    (insert_dependency g a b).nodes.length = max g.nodes.length (1 + max a b) := by
  unfold insert_dependency pushIns pushOut
  simp only [List.length_set]
  exact grow_length g (1 + max a b)

theorem keep_only_length {g g' : DependencyGraph} {S : List Nat}
    (h : keep_only g S = some g') : g'.nodes.length = g.nodes.length := by
  unfold keep_only unchecked_keep_only at h
  cases hu : ukoGo g.nodes.length 0 (vecPop (sortedRev S)).2
      (vecPop (sortedRev S)).1 g.nodes with
  | none =>
    simp only [hu] at h
    exact Option.noConfusion h
  | some nodes =>
    simp only [hu, Option.some.injEq] at h
    subst h
    exact ukoGo_length _ _ _ _ _ _ hu

theorem ukoGo_not_kept_empty {S : List Nat} :
    ∀ (fuel start : Nat) (keep : List Nat) (next : Option Nat)
      (nodes nodes' : List Node),
      ukoGo fuel start keep next nodes = some nodes' →
      (∀ v, next = some v → v ∈ S) → (∀ v ∈ keep, v ∈ S) →
      ∀ j, j ∉ S → start ≤ j → j < start + fuel →
        nodes'.get? j = some Node.empty
  | 0, start, keep, next, nodes, nodes' => by
    intro h h1 h2 j hj hj1 hj2
    omega
  | fuel + 1, start, keep, next, nodes, nodes' => by
    intro h h1 h2 j hj hj1 hj2
    simp only [ukoGo] at h
    by_cases hx : next = some start
    · rw [if_pos hx] at h
      have hs : start ∈ S := h1 start hx
      have hjs : start ≠ j := fun he => hj (he ▸ hs)
      exact ukoGo_not_kept_empty fuel _ _ _ _ _ h
        (fun v hv => h2 v (vecPop_fst_mem hv))
        (fun v hv => h2 v (vecPop_snd_subset hv))
        j hj (by omega) (by omega)
    · rw [if_neg hx] at h
      cases hc : clearNode nodes start with
      | none =>
        simp only [hc] at h
        exact Option.noConfusion h
      | some nodes2 =>
        simp only [hc] at h
        by_cases hjs : j = start
        · subst hjs
          exact ukoGo_pres_empty fuel _ _ _ _ _ h (clearNode_empty_at hc)
        · exact ukoGo_not_kept_empty fuel _ _ _ _ _ h h1 h2 j hj (by omega) (by omega)

theorem keep_only_cleared_empty {g g' : DependencyGraph} {S : List Nat} {j : Nat}
    (h : keep_only g S = some g') (hj : j ∉ S) (hlt : j < g.nodes.length) :
    g'.nodes.get? j = some Node.empty := by
  unfold keep_only unchecked_keep_only at h
  cases hu : ukoGo g.nodes.length 0 (vecPop (sortedRev S)).2
      (vecPop (sortedRev S)).1 g.nodes with
  | none =>
    simp only [hu] at h
    exact Option.noConfusion h
  | some nodes =>
    simp only [hu, Option.some.injEq] at h
    subst h
    exact ukoGo_not_kept_empty g.nodes.length _ _ _ _ _ hu
      (fun v hv => mem_sortedRev.mp (vecPop_fst_mem hv))
      (fun v hv => mem_sortedRev.mp (vecPop_snd_subset hv))
      j hj (by omega) (by omega)

/-- C8: the node storage never shrinks — `insert_dependency` only grows it,
`keep_only`/`kept_only` preserve its length exactly (`topo_sort` takes the
graph immutably and cannot change it at all in this embedding) — and a node
cleared by `keep_only` remains present as an empty record at its index. -/
theorem C8_storage_never_shrinks :
    (∀ (g : DependencyGraph) (a b : Nat),
      g.nodes.length ≤ (insert_dependency g a b).nodes.length) ∧
    (∀ (g g' : DependencyGraph) (S : List Nat), keep_only g S = some g' →
      g'.nodes.length = g.nodes.length) ∧
    (∀ (g g' : DependencyGraph) (S : List Nat), kept_only g S = some g' →
      g'.nodes.length = g.nodes.length) ∧
    (∀ (g g' : DependencyGraph) (S : List Nat) (j : Nat), keep_only g S = some g' →
      j ∉ S → j < g.nodes.length → g'.nodes.get? j = some Node.empty) := by
  refine ⟨?_, ?_, ?_, ?_⟩
  · intro g a b
    rw [insert_dependency_length]
    exact le_max_left ..
  · intro g g' S h
    exact keep_only_length h
  · intro g g' S h
    exact keep_only_length h
  · intro g g' S j h hj hlt
    exact keep_only_cleared_empty h hj hlt

/-- Witness for C8: on the graph with edges `2 → 1` and `0 → 1`,
`keep_only([1, 2])` leaves node 0 as an empty record. -/
theorem C8_witness :
    ((⟨[⟨[], []⟩, ⟨[0], []⟩, ⟨[], [1]⟩]⟩ : DependencyGraph).nodes.get? 0 =
      some Node.empty) :=
  C8_storage_never_shrinks.2.2.2
    (insert_dependency (insert_dependency ⟨[]⟩ 2 1) 0 1)
    ⟨[⟨[], []⟩, ⟨[0], []⟩, ⟨[], [1]⟩]⟩ [1, 2] 0
    (by decide) (by decide) (by decide)

end DepGraph
